import Mathlib

/-!
Verification of the `ts-dedup` library core: a shallow embedding in Lean 4 of
the canonical hasher (`src/lib/hasher/index.ts`), the in-process TTL cache
(`src/lib/cache/memory.ts`), the networked (Redis) TTL cache
(`src/lib/cache/redis.ts`) and the `Deduplicator` orchestrator
(`src/lib/deduplicator.ts`), together with theorems settling the frozen
claims about the specification.

Conventions of the embedding:
* JavaScript runtime values reaching the hasher are modelled by the
  inductive type `JVal` below.  The `pb` constructor stands for an object
  that exposes a `serializeBinary` capability (a protobuf message); its
  first component models its own enumerable properties, the second the
  bytes returned by `serializeBinary`.
* Asynchronous methods are modelled as pure state-passing functions; a
  thrown exception is an `Except.error` carrying the message string.
* Timestamps (`Date.now()`) and TTLs are passed explicitly as integers
  (milliseconds and seconds respectively), matching the numeric values the
  JavaScript code manipulates.
-/

/-- A JavaScript value as it can reach the hasher / deduplicator: `null`,
`undefined`, primitives, `Date` (carrying its epoch milliseconds), `Buffer`
(carrying its bytes), arrays, plain objects (association list of own
enumerable properties, in insertion order), and protobuf messages (`pb`),
which carry their own enumerable properties and the bytes produced by
`serializeBinary`.  Numbers are restricted to integers; none of the claims
exercises non-integral numbers. -/
inductive JVal where
  | null
  | undef
  | bool (b : Bool)
  | num (n : Int)
  | str (s : String)
  | date (ms : Int)
  | buf (bytes : List Nat)
  | arr (elems : List JVal)
  | obj (fields : List (String × JVal))
  | pb (fields : List (String × JVal)) (bytes : List Nat)

/-- Structural induction principle for `JVal` giving the inductive
hypothesis at every member of a nested list. -/
theorem JVal.indOn {P : JVal → Prop}
    (hnull : P .null) (hundef : P .undef) (hbool : ∀ b, P (.bool b))
    (hnum : ∀ n, P (.num n)) (hstr : ∀ s, P (.str s)) (hdate : ∀ t, P (.date t))
    (hbuf : ∀ b, P (.buf b))
    (harr : ∀ l, (∀ v ∈ l, P v) → P (.arr l))
    (hobj : ∀ fs, (∀ p ∈ fs, P (Prod.snd p)) → P (.obj fs))
    (hpb : ∀ fs b, (∀ p ∈ fs, P (Prod.snd p)) → P (.pb fs b)) :
    ∀ v, P v :=
  JVal.rec (motive_1 := P) (motive_2 := fun l => ∀ v ∈ l, P v)
    (motive_3 := fun fs => ∀ p ∈ fs, P p.2) (motive_4 := fun p => P p.2)
    hnull hundef hbool hnum hstr hdate hbuf
    (fun l h => harr l h)
    (fun fs h => hobj fs h)
    (fun fs b h => hpb fs b h)
    (fun v h => by simp at h)
    (fun hd tl hhd htl => by
      intro v hv
      rcases List.mem_cons.mp hv with h | h
      · exact h ▸ hhd
      · exact htl v h)
    (fun p h => by simp at h)
    (fun hd tl hhd htl => by
      intro p hp
      rcases List.mem_cons.mp hp with h | h
      · exact h ▸ hhd
      · exact htl p h)
    (fun k v hv => hv)

/-- Lexicographic comparison of character lists, `JavaScript`
`Array.prototype.sort()`'s default string comparison (code-unit order; for
the characters appearing in cache keys this coincides with code-point
order). -/
def lexLeB : List Char → List Char → Bool
  | [], _ => true
  | _ :: _, [] => false
  | a :: as, b :: bs => if a = b then lexLeB as bs else decide (a < b)

/-- String comparison used by `Object.keys(obj).sort()`. -/
def strLeB (a b : String) : Bool := lexLeB a.data b.data

theorem lexLeB_total : ∀ a b, lexLeB a b = true ∨ lexLeB b a = true := by
  intro a
  induction a with
  | nil => intro b; left; rfl
  | cons x xs ih =>
    intro b
    cases b with
    | nil => right; rfl
    | cons y ys =>
      by_cases hxy : x = y
      · subst hxy
        rcases ih ys with h | h
        · left; simpa [lexLeB] using h
        · right; simpa [lexLeB] using h
      · rcases lt_or_gt_of_ne hxy with h | h
        · left; simp [lexLeB, hxy, h]
        · right; simp [lexLeB, Ne.symm hxy, h]

theorem lexLeB_trans :
    ∀ a b c, lexLeB a b = true → lexLeB b c = true → lexLeB a c = true := by
  intro a
  induction a with
  | nil => intro b c _ _; rfl
  | cons x xs ih =>
    intro b c hab hbc
    cases b with
    | nil => simp [lexLeB] at hab
    | cons y ys =>
      cases c with
      | nil => simp [lexLeB] at hbc
      | cons z zs =>
        by_cases hxy : x = y <;> by_cases hyz : y = z
        · subst hxy; subst hyz
          simp only [lexLeB, if_pos rfl] at hab hbc ⊢
          exact ih _ _ hab hbc
        · subst hxy
          simp only [lexLeB, if_neg hyz] at hbc
          simp [lexLeB, hyz, hbc]
        · subst hyz
          simp only [lexLeB, if_neg hxy] at hab
          simp [lexLeB, hxy, hab]
        · simp only [lexLeB, if_neg hxy] at hab
          simp only [lexLeB, if_neg hyz] at hbc
          have hlt : x < z := lt_trans (of_decide_eq_true hab) (of_decide_eq_true hbc)
          simp [lexLeB, ne_of_lt hlt, hlt]

theorem lexLeB_antisymm :
    ∀ a b, lexLeB a b = true → lexLeB b a = true → a = b := by
  intro a
  induction a with
  | nil => intro b _ hba; cases b with
    | nil => rfl
    | cons y ys => simp [lexLeB] at hba
  | cons x xs ih =>
    intro b hab hba
    cases b with
    | nil => simp [lexLeB] at hab
    | cons y ys =>
      by_cases hxy : x = y
      · subst hxy
        simp only [lexLeB, if_pos rfl] at hab hba
        rw [ih ys hab hba]
      · simp only [lexLeB, if_neg hxy] at hab
        simp only [lexLeB, if_neg (Ne.symm hxy)] at hba
        exact absurd (of_decide_eq_true hab) (not_lt_of_gt (of_decide_eq_true hba))

theorem strLeB_total (a b : String) : strLeB a b = true ∨ strLeB b a = true :=
  lexLeB_total a.data b.data

theorem strLeB_trans {a b c : String} (h1 : strLeB a b = true)
    (h2 : strLeB b c = true) : strLeB a c = true :=
  lexLeB_trans a.data b.data c.data h1 h2

theorem strLeB_antisymm {a b : String} (h1 : strLeB a b = true)
    (h2 : strLeB b a = true) : a = b := by
  cases a; cases b
  exact congrArg String.mk (lexLeB_antisymm _ _ h1 h2)

theorem lexLeB_refl : ∀ a, lexLeB a a = true := by
  intro a
  induction a with
  | nil => rfl
  | cons x xs ih => simpa [lexLeB] using ih

theorem strLeB_refl (a : String) : strLeB a a = true := lexLeB_refl a.data

/-- The order on `String` used by `Object.keys(obj).sort()`. -/
def strLe (a b : String) : Prop := strLeB a b = true

instance : DecidableRel strLe := fun a b => inferInstanceAs (Decidable (_ = true))

instance : IsTotal String strLe := ⟨strLeB_total⟩

instance : IsTrans String strLe := ⟨fun _ _ _ => strLeB_trans⟩

instance : IsAntisymm String strLe := ⟨fun _ _ => strLeB_antisymm⟩

/-- The comparison on `(key, value)` pairs induced by comparing keys. -/
def keyLe (p q : String × JVal) : Prop := strLe p.1 q.1

instance : DecidableRel keyLe := fun p q => inferInstanceAs (Decidable (strLe p.1 q.1))

instance : IsTotal (String × JVal) keyLe := ⟨fun p q => strLeB_total p.1 q.1⟩

instance : IsTrans (String × JVal) keyLe := ⟨fun _ _ _ => strLeB_trans⟩

/-- Sorting the own enumerable properties of an object by key.  The source
sorts the key array (`Object.keys(obj).sort()`) and then reads each key
back with `obj[key]`; since the keys of a JavaScript object are distinct,
that is the same as sorting the `(key, value)` pairs by key. -/
def sortFields (fs : List (String × JVal)) : List (String × JVal) :=
  fs.insertionSort keyLe

/-- Modelled stand-in for `Date.prototype.toISOString`: the fixed ISO-8601
rendering of an epoch-milliseconds timestamp.  Every verified property
depends only on this being a function of the timestamp, so the embedding
does not reproduce the calendar arithmetic. -/
def toISOString (t : Int) : String := "1970-01-01T00:00:00.000Z+" ++ toString t

/-- Modelled stand-in for the hex-encoded SHA-256 digest of a byte string
(`createHash(sha256)` in `src/lib/hasher/index.ts`): a small deterministic
digest.  Every verified property depends only on the digest being a
function of its input. -/
def sha256Bytes (bs : List Nat) : String :=
  "digest-" ++ toString (bs.foldl (fun h b => ((h ^^^ (b % 256)) * 16777619) % 4294967296) 2166136261)

/-- Digest of a string: the digest of its character values (stands in for
digesting the UTF-8 encoding of the string). -/
def sha256 (s : String) : String := sha256Bytes (s.data.map Char.toNat)

/-- Hex digit for `JSON` string escapes. -/
def hexDigit (n : Nat) : Char := if n < 10 then Char.ofNat (48 + n) else Char.ofNat (87 + n)

/-- Escaping of a single character inside a `JSON` string literal, as
`JSON.stringify` produces it. -/
def escapeChar (c : Char) : List Char :=
  if c = '"' then ['\\', '"']
  else if c = '\\' then ['\\', '\\']
  else if c = '\n' then ['\\', 'n']
  else if c = '\r' then ['\\', 'r']
  else if c = '\t' then ['\\', 't']
  else if c.toNat = 8 then ['\\', 'b']
  else if c.toNat = 12 then ['\\', 'f']
  else if c.toNat < 32 then ['\\', 'u', '0', '0', hexDigit (c.toNat / 16), hexDigit (c.toNat % 16)]
  else [c]

/-- `JSON.stringify` applied to a string: the quoted, escaped literal. -/
def quoteJson (s : String) : String :=
  ⟨'"' :: (s.data.map escapeChar).flatten ++ ['"']⟩

/-- JavaScript string coercion (template literals such as
`namespace:deduplicationKey`).  Faithful for the primitive values; for
object-like values (whose coercion is locale/prototype dependent and which
no claim exercises) a fixed placeholder is used. -/
def jsToString : JVal → String
  | .str s => s
  | .num n => toString n
  | .bool b => cond b "true" "false"
  | .null => "null"
  | .undef => "undefined"
  | _ => "[object]"

/-- JavaScript truthiness of a `JVal`. -/
def truthy : JVal → Bool
  | .null => false
  | .undef => false
  | .bool b => b
  | .num n => decide (n ≠ 0)
  | .str s => decide (s ≠ "")
  | _ => true

/-- The own enumerable properties of a `Buffer`, as `Object.keys` and
indexing see them: one property per byte index, named by the decimal index
string, holding the byte as a number. -/
def bufOwnFields (b : List Nat) : List (String × JVal) :=
  ((List.range b.length).zip (b.map JVal.num)).map (fun p => (toString p.1, p.2))

/-!
`normalizeObject` from `src/lib/hasher/index.ts` (lines 11-40), the
recursive canonicalization of a structured payload:

* `null` and non-objects are returned unchanged;
* arrays are normalized element-wise, preserving order;
* any other object is rebuilt from its own enumerable properties taken in
  sorted key order, where a `Date`-valued field becomes its ISO string, a
  nested object-like field (not a `Buffer`) is normalized recursively, an
  `undefined`-valued field is omitted, and every other field value
  (including `Buffer` and `null`) is kept as-is.

A `Date` or `Buffer` reached directly (top level or array element) falls
into the generic object branch: a `Date` has no own enumerable properties
(giving the empty object) and a `Buffer` has one per byte index.
`normFields (sortFields fs) = sortFields (normFields fs)` is proved below
(`normFields_sortFields_comm`): the embedding applies the per-field
processing before sorting so that the recursion is structural, which is
the same list the source's sort-then-process order produces.
-/

mutual
/-- Canonicalization of a structured payload (see the comment above). -/
def normalizeObject : JVal → JVal
  | .null => .null
  | .undef => .undef
  | .bool b => .bool b
  | .num n => .num n
  | .str s => .str s
  | .arr l => .arr (normList l)
  | .date _ => .obj []
  | .buf b => .obj (sortFields (bufOwnFields b))
  | .obj fs => .obj (sortFields (normFields fs))
  | .pb fs _ => .obj (sortFields (normFields fs))

/-- Element-wise normalization of an array (`obj.map(item => normalizeObject(item))`). -/
def normList : List JVal → List JVal
  | [] => []
  | v :: tl => normalizeObject v :: normList tl

/-- The body of the `for (const key of sortedKeys)` loop, applied to each
`(key, value)` pair in turn. -/
def normFields : List (String × JVal) → List (String × JVal)
  | [] => []
  | (k, v) :: tl =>
    match normFieldVal v with
    | some v2 => (k, v2) :: normFields tl
    | none => normFields tl

/-- Processing of a single field value: `Date` to ISO string, object-like
non-`Buffer` values normalized recursively, `undefined` omitted (`none`),
everything else kept unchanged. -/
def normFieldVal : JVal → Option JVal
  | .date t => some (.str (toISOString t))
  | .arr l => some (.arr (normList l))
  | .obj fs => some (.obj (sortFields (normFields fs)))
  | .pb fs b => some (.obj (sortFields (normFields fs)))
  | .undef => none
  | v => some v
end

/-- The per-pair form of the field loop body. -/
def normPair (p : String × JVal) : Option (String × JVal) :=
  (normFieldVal p.2).map (fun v2 => (p.1, v2))

theorem normList_eq_map (l : List JVal) : normList l = l.map normalizeObject := by
  induction l with
  | nil => rfl
  | cons v tl ih => simp [normList, ih]

theorem normFields_eq_filterMap (fs : List (String × JVal)) :
    normFields fs = fs.filterMap normPair := by
  induction fs with
  | nil => rfl
  | cons p tl ih =>
    obtain ⟨k, v⟩ := p
    simp only [normFields, normPair, List.filterMap_cons]
    cases h : normFieldVal v with
    | none => simpa [h] using ih
    | some v2 => simpa [h] using ih

theorem normPair_key {p q : String × JVal} (h : normPair p = some q) : q.1 = p.1 := by
  obtain ⟨k, v⟩ := p
  simp only [normPair, Option.map_eq_some'] at h
  obtain ⟨v2, _, rfl⟩ := h
  rfl

theorem keyLe_congr {a a2 b b2 : String × JVal} (ha : a2.1 = a.1) (hb : b2.1 = b.1) :
    keyLe a2 b2 ↔ keyLe a b := by
  simp [keyLe, ha, hb]

theorem filterMap_orderedInsert (a : String × JVal) (l : List (String × JVal))
    (hs : List.Sorted keyLe l) :
    (List.orderedInsert keyLe a l).filterMap normPair =
      match normPair a with
      | some a2 => List.orderedInsert keyLe a2 (l.filterMap normPair)
      | none => l.filterMap normPair := by
  induction l with
  | nil =>
    cases h : normPair a with
    | none => simp [List.filterMap_cons, h]
    | some a2 => simp [List.filterMap_cons, h]
  | cons b l ih =>
    by_cases hab : keyLe a b
    · rw [List.orderedInsert_of_le keyLe _ hab]
      cases h : normPair a with
      | none => simp [List.filterMap_cons, h]
      | some a2 =>
        have h1 : (a :: b :: l).filterMap normPair =
            a2 :: (b :: l).filterMap normPair := by
          rw [List.filterMap_cons, h]
        rw [h1]
        cases hm : (b :: l).filterMap normPair with
        | nil => simp [hm]
        | cons c m =>
          have hc : c ∈ (b :: l).filterMap normPair := by rw [hm]; exact List.mem_cons_self _ _
          obtain ⟨q, hq, hnq⟩ := List.mem_filterMap.mp hc
          have hbq : keyLe b q := by
            rcases List.mem_cons.mp hq with rfl | hq2
            · exact strLeB_refl _
            · exact List.rel_of_sorted_cons hs _ hq2
          have hac : keyLe a2 c := by
            rw [keyLe_congr (normPair_key h) (normPair_key hnq)]
            exact IsTrans.trans a b q hab hbq
          exact (List.orderedInsert_of_le keyLe _ hac).symm
    · simp only [List.orderedInsert, if_neg hab]
      cases hb : normPair b with
      | none =>
        simp only [List.filterMap_cons, hb]
        rw [ih hs.of_cons]
      | some b2 =>
        simp only [List.filterMap_cons, hb]
        rw [ih hs.of_cons]
        cases h : normPair a with
        | none => simp
        | some a2 =>
          have hnab : ¬ keyLe a2 b2 := by
            rw [keyLe_congr (normPair_key h) (normPair_key hb)]
            exact hab
          simp [List.orderedInsert, if_neg hnab]

/-- The embedding's process-then-sort order produces exactly the list the
source's sort-then-process order produces. -/
theorem normFields_sortFields_comm (fs : List (String × JVal)) :
    normFields (sortFields fs) = sortFields (normFields fs) := by
  rw [normFields_eq_filterMap, normFields_eq_filterMap]
  show (List.insertionSort keyLe fs).filterMap normPair =
    List.insertionSort keyLe (fs.filterMap normPair)
  induction fs with
  | nil => rfl
  | cons a fs ih =>
    simp only [List.insertionSort, List.filterMap_cons]
    rw [filterMap_orderedInsert a _ (List.sorted_insertionSort keyLe fs)]
    cases h : normPair a with
    | none => simpa [h] using ih
    | some a2 => simp [h, ih, List.insertionSort]

/-- Left brace / right brace as strings (for building serialized output). -/
def lbr : String := "\x7b"

/-- Closing brace. -/
def rbr : String := "\x7d"

/-- Comma-joined concatenation. -/
def joinComma (l : List String) : String := String.intercalate "," l

mutual
/-- `JSON.stringify` on a `JVal`: `none` models the JavaScript call
returning `undefined` (as it does on `undefined`).  A `Date` serializes
through its `toJSON` as the quoted ISO string; a `Buffer` through its
`toJSON` as the object with literal fields `type` and `data`; a protobuf
message object through its enumerable fields.  Inside arrays an
`undefined` element serializes as `null`; inside objects a field whose
serialization is `undefined` is omitted. -/
def jsonStringify : JVal → Option String
  | .undef => none
  | .null => some "null"
  | .bool b => some (cond b "true" "false")
  | .num n => some (toString n)
  | .str s => some (quoteJson s)
  | .date t => some (quoteJson (toISOString t))
  | .buf bytes => some (lbr ++ "\"type\":\"Buffer\",\"data\":[" ++
      joinComma (bytes.map (fun b => toString b)) ++ "]" ++ rbr)
  | .arr l => some ("[" ++ joinComma (stringifyList l) ++ "]")
  | .obj fs => some (lbr ++ joinComma (stringifyFields fs) ++ rbr)
  | .pb fs _ => some (lbr ++ joinComma (stringifyFields fs) ++ rbr)

/-- Array elements: an element whose serialization is `undefined` prints
as `null`. -/
def stringifyList : List JVal → List String
  | [] => []
  | v :: tl => ((jsonStringify v).getD "null") :: stringifyList tl

/-- Object fields: a field whose serialization is `undefined` is omitted. -/
def stringifyFields : List (String × JVal) → List String
  | [] => []
  | (k, v) :: tl =>
    match jsonStringify v with
    | some s => (quoteJson k ++ ":" ++ s) :: stringifyFields tl
    | none => stringifyFields tl
end

/-- `hashJson` from `src/lib/hasher/index.ts` (lines 56-69): throws on
`undefined`, digests the direct `JSON.stringify` of `null` and primitives,
and otherwise digests the serialization of the normalized value.  The
normalized top-level value is always an array or an object, so its
serialization is never `undefined`; `getD` supplies an unreachable
default. -/
def hashJson : JVal → Except String String
  | .undef => .error "Cannot hash undefined value"
  | .null => .ok (sha256 "null")
  | .bool b => .ok (sha256 (cond b "true" "false"))
  | .num n => .ok (sha256 (toString n))
  | .str s => .ok (sha256 (quoteJson s))
  | v => .ok (sha256 ((jsonStringify (normalizeObject v)).getD "null"))

/-- `hashProtobuf` from `src/lib/hasher/index.ts` (lines 76-93): rejects
falsy values, rejects values without a `serializeBinary` capability, and
digests the serialized bytes.  The embedding's `pb` values are the ones
carrying the capability; their serialization is modelled as total, so the
wrapped serialization-failure branch is not reachable in the model. -/
def hashProtobuf (v : JVal) : Except String String :=
  if truthy v = false then .error "Cannot hash null or undefined Protobuf message"
  else match v with
    | .pb _ bytes => .ok (sha256Bytes bytes)
    | _ => .error "Invalid Protobuf message: missing serializeBinary method"

/-- `hashMessage` from `src/lib/hasher/index.ts` (lines 101-118): selects
the hasher by format (the parameter default `json` applies when the format
argument is `undefined`), and wraps any error as a hashing failure.  The
format is the raw runtime value of the message's `format` field. -/
def hashMessage (payload : JVal) (format : JVal) : Except String String :=
  let inner : Except String String :=
    match format with
    | .undef => hashJson payload
    | .str s =>
      if s = "json" then hashJson payload
      else if s = "protobuf" then hashProtobuf payload
      else .error ("Unsupported message format: " ++ s)
    | other => .error ("Unsupported message format: " ++ jsToString other)
  match inner with
  | .error e => .error ("Failed to hash message: " ++ e)
  | .ok h => .ok h

/-- First-match association lookup, `obj[key]` on the own enumerable
properties (the keys of a JavaScript object are distinct, so the first
match is the only one). -/
def lookupField (k : String) : List (String × JVal) → Option JVal
  | [] => none
  | (k2, v) :: tl => if k2 = k then some v else lookupField k tl

/-- Whether a field list has pairwise distinct keys (always true for the
field list of an actual JavaScript object). -/
def keysNodup (fs : List (String × JVal)) : Bool := decide (fs.map Prod.fst).Nodup

/-- Whether two field lists bind exactly the same set of keys. -/
def sameKeys (fs1 fs2 : List (String × JVal)) : Bool :=
  fs1.all (fun p => fs2.any (fun q => q.1 = p.1)) &&
    fs2.all (fun p => fs1.any (fun q => q.1 = p.1))

mutual
/-- The specification's field-order-independent deep equality of
structured payloads: equal primitives, element-wise equal arrays (order
matters for sequences), and objects that bind the same keys (in any
order) to deeply equal values at every nesting level.  Object sides are
required to have distinct keys, as the properties of a JavaScript object
always are. -/
def deepEqualUpToReorder : JVal → JVal → Bool
  | .null, .null => true
  | .undef, .undef => true
  | .bool a, .bool b => a = b
  | .num a, .num b => a = b
  | .str a, .str b => a = b
  | .date a, .date b => a = b
  | .buf a, .buf b => a = b
  | .arr l1, .arr l2 => deepEqList l1 l2
  | .obj fs1, .obj fs2 =>
    keysNodup fs1 && keysNodup fs2 && sameKeys fs1 fs2 && deepEqFields fs1 fs2
  | .pb fs1 b1, .pb fs2 b2 =>
    (keysNodup fs1 && keysNodup fs2 && sameKeys fs1 fs2 && deepEqFields fs1 fs2) && b1 = b2
  | _, _ => false

/-- Element-wise deep equality of arrays. -/
def deepEqList : List JVal → List JVal → Bool
  | [], [] => true
  | a :: l1, b :: l2 => deepEqualUpToReorder a b && deepEqList l1 l2
  | _, _ => false

/-- Every field of the first list is bound in the second to a deeply
equal value. -/
def deepEqFields : List (String × JVal) → List (String × JVal) → Bool
  | [], _ => true
  | (k, v) :: tl, fs2 =>
    (match lookupField k fs2 with
     | some v2 => deepEqualUpToReorder v v2
     | none => false) && deepEqFields tl fs2
end

theorem lookupField_mem {k : String} {fs : List (String × JVal)} {v : JVal}
    (h : lookupField k fs = some v) : (k, v) ∈ fs := by
  induction fs with
  | nil => simp [lookupField] at h
  | cons p tl ih =>
    obtain ⟨k2, v2⟩ := p
    by_cases hk : k2 = k
    · subst hk
      have h2 : v2 = v := by simpa [lookupField] using h
      subst h2
      exact List.mem_cons_self _ _
    · simp only [lookupField, if_neg hk] at h
      exact List.mem_cons_of_mem _ (ih h)

theorem lookupField_of_mem_nodup {k : String} {fs : List (String × JVal)} {v : JVal}
    (hnd : (fs.map Prod.fst).Nodup) (h : (k, v) ∈ fs) : lookupField k fs = some v := by
  induction fs with
  | nil => simp at h
  | cons p tl ih =>
    obtain ⟨k2, v2⟩ := p
    simp only [List.map_cons, List.nodup_cons] at hnd
    rcases List.mem_cons.mp h with he | hm
    · injection he with h1 h2
      subst h1; subst h2
      simp [lookupField]
    · have hkk : k2 ≠ k := by
        intro e
        subst e
        exact hnd.1 (List.mem_map.mpr ⟨(k2, v), hm, rfl⟩)
      simp only [lookupField, if_neg hkk]
      exact ih hnd.2 hm

theorem deepEqFields_lookup {fs1 fs2 : List (String × JVal)}
    (h : deepEqFields fs1 fs2 = true) :
    ∀ p ∈ fs1, ∃ v2, lookupField p.1 fs2 = some v2 ∧
      deepEqualUpToReorder p.2 v2 = true := by
  induction fs1 with
  | nil => intro p hp; simp at hp
  | cons q tl ih =>
    obtain ⟨k, v⟩ := q
    simp only [deepEqFields, Bool.and_eq_true] at h
    intro p hp
    rcases List.mem_cons.mp hp with he | hm
    · subst he
      cases hl : lookupField k fs2 with
      | none => rw [hl] at h; simp at h
      | some v2 =>
        rw [hl] at h
        exact ⟨v2, rfl, h.1⟩
    · exact ih h.2 p hm

theorem sorted_nodupKeys_perm_eq :
    ∀ {l1 l2 : List (String × JVal)}, List.Perm l1 l2 → List.Sorted keyLe l1 →
      List.Sorted keyLe l2 → (l1.map Prod.fst).Nodup → l1 = l2 := by
  intro l1
  induction l1 with
  | nil => intro l2 hp _ _ _; exact (hp.nil_eq).symm ▸ rfl
  | cons a t1 ih =>
    intro l2 hp hs1 hs2 hnd
    cases l2 with
    | nil => exact absurd hp.symm (by simp)
    | cons b t2 =>
      have hab : a = b := by
        by_contra hne
        have ha2 : a ∈ b :: t2 := hp.mem_iff.mp (List.mem_cons_self _ _)
        have hb1 : b ∈ a :: t1 := hp.mem_iff.mpr (List.mem_cons_self _ _)
        have hat2 : a ∈ t2 := by
          rcases List.mem_cons.mp ha2 with he | hm
          · exact absurd he hne
          · exact hm
        have hbt1 : b ∈ t1 := by
          rcases List.mem_cons.mp hb1 with he | hm
          · exact absurd he.symm hne
          · exact hm
        have h1 : keyLe a b := List.rel_of_sorted_cons hs1 _ hbt1
        have h2 : keyLe b a := List.rel_of_sorted_cons hs2 _ hat2
        have hk : a.1 = b.1 := strLeB_antisymm h1 h2
        have : a.1 ∈ t1.map Prod.fst := List.mem_map.mpr ⟨b, hbt1, hk.symm⟩
        simp only [List.map_cons, List.nodup_cons] at hnd
        exact hnd.1 this
      subst hab
      have hpt : List.Perm t1 t2 := hp.cons_inv
      simp only [List.map_cons, List.nodup_cons] at hnd
      rw [ih hpt hs1.of_cons hs2.of_cons hnd.2]

theorem normFields_keys_sublist (fs : List (String × JVal)) :
    List.Sublist ((normFields fs).map Prod.fst) (fs.map Prod.fst) := by
  induction fs with
  | nil => simp [normFields]
  | cons p tl ih =>
    obtain ⟨k, v⟩ := p
    cases h : normFieldVal v with
    | none =>
      simp only [normFields, h, List.map_cons]
      exact ih.cons _
    | some v2 =>
      simp only [normFields, h, List.map_cons]
      exact ih.cons₂ _

theorem normFields_keys_nodup {fs : List (String × JVal)}
    (h : (fs.map Prod.fst).Nodup) : ((normFields fs).map Prod.fst).Nodup :=
  h.sublist (normFields_keys_sublist fs)

theorem mem_normFields {fs : List (String × JVal)} {k : String} {w : JVal} :
    (k, w) ∈ normFields fs ↔ ∃ v, (k, v) ∈ fs ∧ normFieldVal v = some w := by
  rw [normFields_eq_filterMap]
  constructor
  · intro h
    obtain ⟨⟨k2, v⟩, hmem, hnp⟩ := List.mem_filterMap.mp h
    simp only [normPair, Option.map_eq_some'] at hnp
    obtain ⟨w2, hw2, he⟩ := hnp
    injection he with he1 he2
    subst he1
    subst he2
    exact ⟨v, hmem, hw2⟩
  · intro ⟨v, hmem, hnv⟩
    exact List.mem_filterMap.mpr ⟨(k, v), hmem, by simp [normPair, hnv]⟩

theorem normList_congr {l1 l2 : List JVal}
    (ih : ∀ v ∈ l1, ∀ v2, deepEqualUpToReorder v v2 = true →
      normalizeObject v = normalizeObject v2)
    (h : deepEqList l1 l2 = true) : normList l1 = normList l2 := by
  induction l1 generalizing l2 with
  | nil => cases l2 with
    | nil => rfl
    | cons b t2 => simp [deepEqList] at h
  | cons a t1 iht =>
    cases l2 with
    | nil => simp [deepEqList] at h
    | cons b t2 =>
      simp only [deepEqList, Bool.and_eq_true] at h
      have h1 := ih a (List.mem_cons_self _ _) b h.1
      have h2 := iht (fun v hv => ih v (List.mem_cons_of_mem _ hv)) h.2
      simp [normList, h1, h2]

theorem normFieldVal_congr {v1 v2 : JVal}
    (hmain : normalizeObject v1 = normalizeObject v2)
    (hdeq : deepEqualUpToReorder v1 v2 = true) :
    normFieldVal v1 = normFieldVal v2 := by
  cases v1 <;> cases v2 <;>
    simp_all [deepEqualUpToReorder, normFieldVal, normalizeObject]

theorem sameKeys_right {fs1 fs2 : List (String × JVal)} (h : sameKeys fs1 fs2 = true) :
    ∀ p ∈ fs2, ∃ q ∈ fs1, q.1 = p.1 := by
  intro p hp
  simp only [sameKeys, Bool.and_eq_true, List.all_eq_true] at h
  have := h.2 p hp
  simp only [List.any_eq_true, decide_eq_true_eq] at this
  exact this

theorem sortNormFields_congr {fs1 fs2 : List (String × JVal)}
    (ih : ∀ p ∈ fs1, ∀ v2, deepEqualUpToReorder (Prod.snd p) v2 = true →
      normalizeObject (Prod.snd p) = normalizeObject v2)
    (hnd1 : keysNodup fs1 = true) (hnd2 : keysNodup fs2 = true)
    (hsk : sameKeys fs1 fs2 = true) (hdf : deepEqFields fs1 fs2 = true) :
    sortFields (normFields fs1) = sortFields (normFields fs2) := by
  have hnd1k : (fs1.map Prod.fst).Nodup := of_decide_eq_true hnd1
  have hnd2k : (fs2.map Prod.fst).Nodup := of_decide_eq_true hnd2
  have hmem : ∀ k w, (k, w) ∈ normFields fs1 ↔ (k, w) ∈ normFields fs2 := by
    intro k w
    constructor
    · intro h
      obtain ⟨v1, hv1mem, hv1⟩ := mem_normFields.mp h
      obtain ⟨v2, hlk, hdeq⟩ := deepEqFields_lookup hdf (k, v1) hv1mem
      have hv2mem : (k, v2) ∈ fs2 := lookupField_mem hlk
      have hcong : normFieldVal v1 = normFieldVal v2 :=
        normFieldVal_congr (ih (k, v1) hv1mem v2 hdeq) hdeq
      exact mem_normFields.mpr ⟨v2, hv2mem, hcong ▸ hv1⟩
    · intro h
      obtain ⟨v2, hv2mem, hv2⟩ := mem_normFields.mp h
      obtain ⟨⟨k1, v1⟩, hq, hk1⟩ := sameKeys_right hsk (k, v2) hv2mem
      simp only at hk1
      subst hk1
      obtain ⟨v2x, hlk, hdeq⟩ := deepEqFields_lookup hdf (k1, v1) hq
      have hlk2 : lookupField k1 fs2 = some v2 := lookupField_of_mem_nodup hnd2k hv2mem
      simp only at hlk
      rw [hlk2] at hlk
      injection hlk with he
      subst he
      have hcong : normFieldVal v1 = normFieldVal v2 :=
        normFieldVal_congr (ih (k1, v1) hq v2 hdeq) hdeq
      exact mem_normFields.mpr ⟨v1, hq, by rw [hcong]; exact hv2⟩
  have hp : List.Perm (normFields fs1) (normFields fs2) := by
    refine (List.perm_ext_iff_of_nodup ?_ ?_).mpr ?_
    · exact List.Nodup.of_map Prod.fst (normFields_keys_nodup hnd1k)
    · exact List.Nodup.of_map Prod.fst (normFields_keys_nodup hnd2k)
    · intro p
      obtain ⟨k, w⟩ := p
      exact hmem k w
  have hperm : List.Perm (sortFields (normFields fs1)) (sortFields (normFields fs2)) :=
    ((List.perm_insertionSort keyLe _).trans hp).trans
      (List.perm_insertionSort keyLe _).symm
  refine sorted_nodupKeys_perm_eq hperm (List.sorted_insertionSort keyLe _)
    (List.sorted_insertionSort keyLe _) ?_
  have hk : List.Perm ((sortFields (normFields fs1)).map Prod.fst)
      ((normFields fs1).map Prod.fst) :=
    (List.perm_insertionSort keyLe _).map Prod.fst
  exact (normFields_keys_nodup hnd1k).perm hk.symm

/-- Deeply-equal-up-to-field-reordering payloads canonicalize identically. -/
theorem normalizeObject_congr :
    ∀ v1 v2, deepEqualUpToReorder v1 v2 = true →
      normalizeObject v1 = normalizeObject v2 := by
  intro v1
  induction v1 using JVal.indOn with
  | hnull => intro v2 h; cases v2 <;> simp_all [deepEqualUpToReorder]
  | hundef => intro v2 h; cases v2 <;> simp_all [deepEqualUpToReorder]
  | hbool b => intro v2 h; cases v2 <;> simp_all [deepEqualUpToReorder]
  | hnum n => intro v2 h; cases v2 <;> simp_all [deepEqualUpToReorder]
  | hstr s => intro v2 h; cases v2 <;> simp_all [deepEqualUpToReorder]
  | hdate t => intro v2 h; cases v2 <;> simp_all [deepEqualUpToReorder, normalizeObject]
  | hbuf b => intro v2 h; cases v2 <;> simp_all [deepEqualUpToReorder]
  | harr l ih =>
    intro v2 h
    cases v2
    case arr l2 =>
      simp only [deepEqualUpToReorder] at h
      simp only [normalizeObject]
      rw [normList_congr ih h]
    all_goals simp_all [deepEqualUpToReorder]
  | hobj fs ih =>
    intro v2 h
    cases v2
    case obj fs2 =>
      simp only [deepEqualUpToReorder, Bool.and_eq_true] at h
      simp only [normalizeObject]
      rw [sortNormFields_congr ih h.1.1.1 h.1.1.2 h.1.2 h.2]
    all_goals simp_all [deepEqualUpToReorder]
  | hpb fs b ih =>
    intro v2 h
    cases v2
    case pb fs2 b2 =>
      simp only [deepEqualUpToReorder, Bool.and_eq_true] at h
      simp only [normalizeObject]
      rw [sortNormFields_congr ih h.1.1.1.1 h.1.1.1.2 h.1.1.2 h.1.2]
    all_goals simp_all [deepEqualUpToReorder]

/-- The options shared by the cache backends and the deduplicator
(`DeduplicatorOptions` plus the defaults applied in `BaseCache` /
`Deduplicator`): the TTL in seconds and the namespace (debug logging is a
side channel only and is not modelled). -/
structure CacheCfg where
  ns : String := "ts-dedup"
  ttl : Int := 300

/-- `BaseCache.getNamespacedKey`. -/
def getNamespacedKey (cfg : CacheCfg) (key : String) : String :=
  cfg.ns ++ ":" ++ key

/-- A pending `setTimeout` eviction callback of the in-process cache:
its handle, the (namespaced) key it will delete, and the instant it is
scheduled to fire. -/
structure Timer where
  id : Nat
  key : String
  fireAt : Int
deriving DecidableEq

/-- A stored entry of the in-process cache: the recorded deadline and the
handle of the eviction timeout attached to it. -/
structure MemEntry where
  expires : Int
  tid : Nat
deriving DecidableEq

/-- The state of a `MemoryCache`: its `Map` (association list, newest
first), the set of pending eviction timers, and the next fresh timer
handle. -/
structure MemState where
  store : List (String × MemEntry) := []
  timers : List Timer := []
  nextId : Nat := 0
deriving DecidableEq

namespace MemoryCache

/-- `MemoryCache.delete`: if the (namespaced) key is present, cancel its
timeout and remove the entry; otherwise do nothing.  Never throws. -/
def del (cfg : CacheCfg) (st : MemState) (key : String) : MemState :=
  let nk := getNamespacedKey cfg key
  match st.store.find? (fun p => p.1 = nk) with
  | some p =>
    { st with
      store := st.store.eraseP (fun q => q.1 = nk)
      timers := st.timers.eraseP (fun t => t.id = p.2.tid) }
  | none => st

/-- `MemoryCache.set`: compute the deadline `now + ttl * 1000`, cancel any
existing entry and timeout for the key (via `delete`), schedule a fresh
eviction timeout, and store the entry.  No validation of `key` or `ttl`
is performed.  Never throws. -/
def set (cfg : CacheCfg) (st : MemState) (key : String) (ttl : Int) (now : Int) :
    MemState :=
  let nk := getNamespacedKey cfg key
  let expires := now + ttl * 1000
  let st1 := del cfg st key
  { store := (nk, ⟨expires, st1.nextId⟩) :: st1.store
    timers := ⟨st1.nextId, nk, expires⟩ :: st1.timers
    nextId := st1.nextId + 1 }

/-- `MemoryCache.has`: absent key gives `false`; a present entry whose
deadline has passed (`entry.expires < Date.now()`) is eagerly evicted via
`delete` and reported absent; otherwise `true`.  Never throws. -/
def has (cfg : CacheCfg) (st : MemState) (key : String) (now : Int) :
    Bool × MemState :=
  let nk := getNamespacedKey cfg key
  match st.store.find? (fun p => p.1 = nk) with
  | none => (false, st)
  | some p =>
    if p.2.expires < now then (false, del cfg st key) else (true, st)

/-- `MemoryCache.clear`: cancel the timeout of every stored entry, then
wipe the `Map`.  Never throws. -/
def clear (st : MemState) : MemState :=
  { st with
    store := []
    timers := st.timers.filter (fun t => ¬ ∃ p ∈ st.store, p.2.tid = t.id) }

/-- The firing of the eviction callback scheduled by `set`: when the
timeout with this handle is still pending, it deletes its key from the
`Map` (by raw `Map.delete`, not `MemoryCache.delete`) and is itself no
longer pending; a cancelled handle does nothing. -/
def fire (st : MemState) (tid : Nat) : MemState :=
  match st.timers.find? (fun t => t.id = tid) with
  | none => st
  | some t =>
    { st with
      store := st.store.eraseP (fun p => p.1 = t.key)
      timers := st.timers.eraseP (fun t2 => t2.id = tid) }

/-- Mutual consistency of the store and the eviction bookkeeping
(§4.3 of the specification): distinct stored keys, distinct pending timer
handles, every stored entry owns a pending timer targeting exactly its
key and deadline, and every pending timer belongs to a stored entry. -/
def WF (st : MemState) : Prop :=
  (st.store.map Prod.fst).Nodup ∧
  (st.timers.map Timer.id).Nodup ∧
  (∀ p ∈ st.store, ∃ t ∈ st.timers,
    t.id = p.2.tid ∧ t.key = p.1 ∧ t.fireAt = p.2.expires) ∧
  (∀ t ∈ st.timers, ∃ p ∈ st.store, p.2.tid = t.id ∧ p.1 = t.key)

instance (st : MemState) : Decidable (WF st) := by
  unfold WF
  infer_instance

end MemoryCache

/-- The state of a `RedisCache`: the tracked connection flag and the
remote keyspace (keys with their stored TTL in seconds).  The remote
expiry clock is irrelevant to the claims and is not modelled. -/
structure RedisState where
  connected : Bool := true
  store : List (String × Int) := []
deriving DecidableEq

theorem dropWhile_length_le (p : Char → Bool) (l : List Char) :
    (l.dropWhile p).length ≤ l.length := by
  induction l with
  | nil => simp
  | cons c tl ih =>
    by_cases h : p c
    · simp only [List.dropWhile_cons, h, if_pos]
      simp only [List.length_cons]
      omega
    · simp [List.dropWhile_cons, h]

mutual
/-- Collapse of runs of colons over a character list: a colon is kept and
the rest of its run discarded. -/
def collapseGo : List Char → List Char
  | [] => []
  | c :: tl => if c = ':' then c :: collapseDrop tl else c :: collapseGo tl

/-- Discards the remainder of a colon run. -/
def collapseDrop : List Char → List Char
  | [] => []
  | c :: tl => if c = ':' then collapseDrop tl else c :: collapseGo tl
end

/-- Collapse of runs of colons (`replace(/::+/g, ":")`) applied by
`RedisCache.getKey` to the prefixed key. -/
def collapseColons (s : String) : String :=
  ⟨collapseGo s.data⟩

namespace RedisCache

/-- `RedisCache.getKey`: rejects an empty key, otherwise prefixes it and
collapses repeated colons.  `pfx` is the instance's prefix (namespace
followed by a single colon). -/
def getKey (pfx : String) (key : String) : Except String String :=
  if key = "" then .error "Cache key cannot be empty"
  else .ok (collapseColons (pfx ++ key))

/-- `RedisCache.has`: disconnected gives `false` immediately; any error in
the try block (including the empty-key rejection of `getKey` and a failed
wire query, modelled by `wireOk = false`) is caught and gives `false`
(fail-open).  Never throws. -/
def has (pfx : String) (st : RedisState) (key : String) (wireOk : Bool) : Bool :=
  if st.connected = false then false
  else
    match getKey pfx key with
    | .error _ => false
    | .ok ck =>
      if wireOk = false then false
      else st.store.any (fun p => p.1 = ck)

/-- `RedisCache.set`: rejects an empty key, then an invalid TTL
(`ttl <= 0`); when disconnected it silently returns without writing; the
TTL sent over the wire is `Math.max(1, Math.floor(ttl))` (the floor is the
identity on integer TTLs); a wire failure (`wireOk = false`) is re-thrown. -/
def set (pfx : String) (st : RedisState) (key : String) (ttl : Int)
    (wireOk : Bool) : Except String RedisState :=
  if key = "" then .error "Cache key cannot be empty"
  else if ttl ≤ 0 then .error "TTL must be greater than 0"
  else if st.connected = false then .ok st
  else
    match getKey pfx key with
    | .error e => .error e
    | .ok ck =>
      if wireOk = false then .error "Redis set failed"
      else .ok { st with store := (ck, max 1 ttl) :: st.store.filter (fun p => ¬ p.1 = ck) }

/-- `RedisCache.delete`: empty key or disconnected returns silently; a
wire failure is caught and swallowed (the comment in the source: still
resolve to maintain the interface contract).  Never throws. -/
def del (pfx : String) (st : RedisState) (key : String) (wireOk : Bool) : RedisState :=
  if key = "" then st
  else if st.connected = false then st
  else
    match getKey pfx key with
    | .error _ => st
    | .ok ck =>
      if wireOk = false then st
      else { st with store := st.store.filter (fun p => ¬ p.1 = ck) }

/-- `RedisCache.clearWithCount`: when disconnected, returns 0 without
scanning; otherwise scans the keyspace for keys matching the prefix and
bulk-deletes them in batches, returning the count; a scan or pipeline
failure (`wireOk = false`) rejects. -/
def clearWithCount (pfx : String) (st : RedisState) (wireOk : Bool) :
    Except String (Nat × RedisState) :=
  if st.connected = false then .ok (0, st)
  else if wireOk = false then .error "Redis scan failed"
  else
    let removed := st.store.filter (fun p => p.1.startsWith pfx)
    .ok (removed.length, { st with store := st.store.filter (fun p => ¬ p.1.startsWith pfx) })

/-- `RedisCache.clear`: when disconnected, returns silently; otherwise
delegates to `clearWithCount` and catches (swallows) any error it raises
(the comment in the source: still resolve even if there is an error to
maintain the interface contract).  Never throws. -/
def clear (pfx : String) (st : RedisState) (wireOk : Bool) : RedisState :=
  if st.connected = false then st
  else
    match clearWithCount pfx st wireOk with
    | .error _ => st
    | .ok (_, st2) => st2

end RedisCache

/-- The capability surface a `Deduplicator` sees of its injected cache
(`Cache` in `src/lib/cache/base.ts`): existence check, insert with TTL,
delete, and an optional bulk clear.  Each operation returns its result
(or the thrown error) together with the successor state. -/
structure Backend (σ : Type) where
  has : σ → String → (Except String Bool) × σ
  set : σ → String → Int → (Except String Unit) × σ
  del : σ → String → (Except String Unit) × σ
  clear : Option (σ → (Except String Unit) × σ)

/-- Whether `typeof v` is the string `object`. -/
def typeofObject : JVal → Bool
  | .null => true
  | .date _ => true
  | .buf _ => true
  | .arr _ => true
  | .obj _ => true
  | .pb _ _ => true
  | _ => false

/-- Whether `"payload" in v` holds: an own (or, for the modelled values,
inherited: there are none) property named `payload`. -/
def hasPayloadProp : JVal → Bool
  | .obj fs => fs.any (fun p => p.1 = "payload")
  | .pb fs _ => fs.any (fun p => p.1 = "payload")
  | _ => false

/-- Property access `v[k]` on an object-like value (`undefined` when
absent or not an object). -/
def getProp (v : JVal) (k : String) : JVal :=
  match v with
  | .obj fs => (lookupField k fs).getD .undef
  | .pb fs _ => (lookupField k fs).getD .undef
  | _ => .undef

namespace Deduplicator

/-- `Deduplicator.normalizeMessage` (lines 194-205): a truthy object with
a `payload` property is already a message envelope and is returned as-is;
any other value is wrapped as `{ payload: value, format: json }`. -/
def normalizeMessage (v : JVal) : JVal :=
  if truthy v && typeofObject v && hasPayloadProp v then v
  else .obj [("payload", v), ("format", .str "json")]

/-- `Deduplicator.getCacheKey` (lines 180-187): a truthy
`deduplicationKey` short-circuits to `namespace:deduplicationKey`
(template-literal string coercion); otherwise the key is
`namespace:hashMessage(payload, format)`. -/
def getCacheKey (cfg : CacheCfg) (m : JVal) : Except String String :=
  if truthy (getProp m "deduplicationKey") then
    .ok (cfg.ns ++ ":" ++ jsToString (getProp m "deduplicationKey"))
  else
    match hashMessage (getProp m "payload") (getProp m "format") with
    | .error e => .error e
    | .ok h => .ok (cfg.ns ++ ":" ++ h)

/-- `Deduplicator.isDuplicate` (lines 93-116): normalize, derive the key
(outside the try block: a hashing error propagates), then inside the try
block query `has` and, when absent, insert via `set`; any error thrown by
either backend call is caught and the message is reported as not a
duplicate (fail-open). -/
def isDuplicate {σ : Type} (B : Backend σ) (cfg : CacheCfg) (st : σ) (msg : JVal) :
    Except String (Bool × σ) :=
  let m := normalizeMessage msg
  match getCacheKey cfg m with
  | .error e => .error e
  | .ok key =>
    match B.has st key with
    | (.error _, st1) => .ok (false, st1)
    | (.ok true, st1) => .ok (true, st1)
    | (.ok false, st1) =>
      match B.set st1 key cfg.ttl with
      | (_, st2) => .ok (false, st2)

/-- `Deduplicator.removeFromCache` (lines 144-155): derive the key, call
the backend's `delete`, and re-throw any error it raises. -/
def removeFromCache {σ : Type} (B : Backend σ) (cfg : CacheCfg) (st : σ) (msg : JVal) :
    Except String σ :=
  let m := normalizeMessage msg
  match getCacheKey cfg m with
  | .error e => .error e
  | .ok key =>
    match B.del st key with
    | (.error e, _) => .error e
    | (.ok _, st1) => .ok st1

/-- `Deduplicator.clearCache` (lines 160-173): when the backend exposes
`clear`, call it and re-throw any error it raises; otherwise do nothing. -/
def clearCache {σ : Type} (B : Backend σ) (st : σ) : Except String σ :=
  match B.clear with
  | none => .ok st
  | some f =>
    match f st with
    | (.error e, _) => .error e
    | (.ok _, st1) => .ok st1

end Deduplicator

/-- The in-process backend as a `Deduplicator` cache, at one instant
`now`: none of its operations throws. -/
def memBackend (cfg : CacheCfg) (now : Int) : Backend MemState where
  has := fun st k =>
    let r := MemoryCache.has cfg st k now
    (.ok r.1, r.2)
  set := fun st k ttl => (.ok (), MemoryCache.set cfg st k ttl now)
  del := fun st k => (.ok (), MemoryCache.del cfg st k)
  clear := some (fun st => (.ok (), MemoryCache.clear st))

/-- The networked backend as a `Deduplicator` cache, with the given wire
behaviour: only `set` can throw; `has`, `delete` and `clear` resolve in
every case. -/
def redisBackend (pfx : String) (wireOk : Bool) : Backend RedisState where
  has := fun st k => (.ok (RedisCache.has pfx st k wireOk), st)
  set := fun st k ttl =>
    match RedisCache.set pfx st k ttl wireOk with
    | .error e => (.error e, st)
    | .ok st2 => (.ok (), st2)
  del := fun st k => (.ok (), RedisCache.del pfx st k wireOk)
  clear := some (fun st => (.ok (), RedisCache.clear pfx st wireOk))

theorem MemoryCache.del_nextId (cfg : CacheCfg) (st : MemState) (key : String) :
    (MemoryCache.del cfg st key).nextId = st.nextId := by
  unfold MemoryCache.del
  dsimp only
  split <;> rfl

/-- Claim C1: for a message whose derived cache key is not yet present in
the (in-process) backend, the first `isDuplicate` call returns `false` and
inserts the key with deadline `now + ttl * 1000` (the configured TTL), and
a second call with the same message made while the TTL has not elapsed
returns `true`. -/
theorem isDuplicate_first_false_then_true
    (cfg : CacheCfg) (st st1 : MemState) (msg : JVal) (now1 now2 : Int) (k : String)
    (hk : Deduplicator.getCacheKey cfg (Deduplicator.normalizeMessage msg) = .ok k)
    (habs : MemoryCache.has cfg st k now1 = (false, st1))
    (hwin : now2 ≤ now1 + cfg.ttl * 1000) :
    Deduplicator.isDuplicate (memBackend cfg now1) cfg st msg =
      .ok (false, MemoryCache.set cfg st1 k cfg.ttl now1) ∧
    (MemoryCache.set cfg st1 k cfg.ttl now1).store.find?
        (fun p => p.1 = getNamespacedKey cfg k) =
      some (getNamespacedKey cfg k, ⟨now1 + cfg.ttl * 1000, st1.nextId⟩) ∧
    Deduplicator.isDuplicate (memBackend cfg now2) cfg
        (MemoryCache.set cfg st1 k cfg.ttl now1) msg =
      .ok (true, MemoryCache.set cfg st1 k cfg.ttl now1) := by
  refine ⟨?_, ?_, ?_⟩
  · simp only [Deduplicator.isDuplicate, hk, memBackend, habs]
  · simp only [MemoryCache.set]
    rw [List.find?_cons_of_pos _ (by simp), MemoryCache.del_nextId]
  · have hmem : MemoryCache.has cfg (MemoryCache.set cfg st1 k cfg.ttl now1) k now2 =
        (true, MemoryCache.set cfg st1 k cfg.ttl now1) := by
      unfold MemoryCache.has
      conv_lhs => rw [MemoryCache.set]
      dsimp only
      rw [List.find?_cons_of_pos _ (by simp)]
      dsimp only
      rw [if_neg (by omega)]
      rw [MemoryCache.set]
    simp only [Deduplicator.isDuplicate, hk, memBackend, hmem]

/-- Claim C1 witness: the message `{id: "1"}` on an empty in-process
backend at time 0, re-submitted at time 1000 (inside the default
300-second window). -/
theorem isDuplicate_first_false_then_true_witness :
    ∃ st2, Deduplicator.isDuplicate (memBackend {} 0) {} ({} : MemState)
        (.obj [("id", .str "1")]) = .ok (false, st2) ∧
      Deduplicator.isDuplicate (memBackend {} 1000) {} st2
        (.obj [("id", .str "1")]) = .ok (true, st2) := by
  have h := isDuplicate_first_false_then_true {} {} {} (.obj [("id", .str "1")])
    0 1000 _ rfl rfl (by decide)
  exact ⟨_, h.1, h.2.2⟩

/-- Claim C9: when `isDuplicate` finds the derived key already present,
it returns `true` with exactly the state the existence check produced —
no `set` is issued (for any backend, the result state is the
existence-check state); and for the in-process backend a successful
existence check leaves the state entirely unchanged (the entry's deadline
and all other state included), so presence refreshes nothing. -/
theorem isDuplicate_present_no_mutation :
    (∀ (σ : Type) (B : Backend σ) (cfg : CacheCfg) (st st1 : σ) (msg : JVal) (k : String),
      Deduplicator.getCacheKey cfg (Deduplicator.normalizeMessage msg) = .ok k →
      B.has st k = (.ok true, st1) →
      Deduplicator.isDuplicate B cfg st msg = .ok (true, st1)) ∧
    (∀ (cfg : CacheCfg) (st st2 : MemState) (k : String) (now : Int),
      MemoryCache.has cfg st k now = (true, st2) → st2 = st) := by
  constructor
  · intro σ B cfg st st1 msg k hk hhas
    simp only [Deduplicator.isDuplicate, hk, hhas]
  · intro cfg st st2 k now h
    rcases hf : st.store.find? (fun p => p.1 = getNamespacedKey cfg k) with _ | p
    · simp [MemoryCache.has, hf] at h
    · by_cases he : p.2.expires < now
      · simp [MemoryCache.has, hf, he] at h
      · simp [MemoryCache.has, hf, he] at h
        exact h.symm

/-- Claim C9 witness: a message with an explicit deduplication key whose
derived key is already stored in the in-process backend: `isDuplicate`
returns `true` and the state is unchanged. -/
theorem isDuplicate_present_no_mutation_witness :
    Deduplicator.isDuplicate
        (memBackend {} 50) {}
        ({ store := [("ts-dedup:ts-dedup:k1", ⟨100, 0⟩)],
           timers := [⟨0, "ts-dedup:ts-dedup:k1", 100⟩], nextId := 1 } : MemState)
        (.obj [("payload", .num 1), ("deduplicationKey", .str "k1")]) =
      .ok (true,
        { store := [("ts-dedup:ts-dedup:k1", ⟨100, 0⟩)],
          timers := [⟨0, "ts-dedup:ts-dedup:k1", 100⟩], nextId := 1 }) :=
  isDuplicate_present_no_mutation.1 MemState (memBackend {} 50) {} _ _
    (.obj [("payload", .num 1), ("deduplicationKey", .str "k1")]) "ts-dedup:k1"
    rfl rfl

/-- Claim C4: `isDuplicate`'s fail-open boundary covers exactly the
backend existence check and insert: a hashing error during key derivation
propagates to the caller unmodified; once the key is derived, the call
never raises — an error from the backend's `has` yields `false`, and an
error from the subsequent `set` also yields `false`. -/
theorem isDuplicate_failOpen_boundary :
    (∀ (σ : Type) (B : Backend σ) (cfg : CacheCfg) (st : σ) (msg : JVal) (e : String),
      Deduplicator.getCacheKey cfg (Deduplicator.normalizeMessage msg) = .error e →
      Deduplicator.isDuplicate B cfg st msg = .error e) ∧
    (∀ (σ : Type) (B : Backend σ) (cfg : CacheCfg) (st st1 : σ) (msg : JVal) (k e : String),
      Deduplicator.getCacheKey cfg (Deduplicator.normalizeMessage msg) = .ok k →
      B.has st k = (.error e, st1) →
      Deduplicator.isDuplicate B cfg st msg = .ok (false, st1)) ∧
    (∀ (σ : Type) (B : Backend σ) (cfg : CacheCfg) (st st1 st2 : σ) (msg : JVal)
        (k : String) (r : Except String Unit),
      Deduplicator.getCacheKey cfg (Deduplicator.normalizeMessage msg) = .ok k →
      B.has st k = (.ok false, st1) →
      B.set st1 k cfg.ttl = (r, st2) →
      Deduplicator.isDuplicate B cfg st msg = .ok (false, st2)) ∧
    (∀ (σ : Type) (B : Backend σ) (cfg : CacheCfg) (st : σ) (msg : JVal) (k : String),
      Deduplicator.getCacheKey cfg (Deduplicator.normalizeMessage msg) = .ok k →
      (Deduplicator.isDuplicate B cfg st msg).isOk = true) := by
  refine ⟨?_, ?_, ?_, ?_⟩
  · intro σ B cfg st msg e hk
    simp only [Deduplicator.isDuplicate, hk]
  · intro σ B cfg st st1 msg k e hk hhas
    simp only [Deduplicator.isDuplicate, hk, hhas]
  · intro σ B cfg st st1 st2 msg k r hk hhas hset
    simp only [Deduplicator.isDuplicate, hk, hhas, hset]
  · intro σ B cfg st msg k hk
    simp only [Deduplicator.isDuplicate, hk]
    rcases B.has st k with ⟨_ | b, st1⟩
    · rfl
    · cases b
      · rcases B.set st1 k cfg.ttl with ⟨r, st2⟩
        rfl
      · rfl

/-- Claim C4 witness: against a backend whose `has` and `set` always
throw, a well-formed message still yields `false` (fail-open), while the
un-hashable message `undefined` propagates the hashing error unmodified. -/
theorem isDuplicate_failOpen_boundary_witness :
    Deduplicator.isDuplicate
        ({ has := fun st k => (.error "boom", st)
           set := fun st _ _ => (.error "boom", st)
           del := fun st _ => (.ok (), st)
           clear := none } : Backend Unit) {} () (.num 1) = .ok (false, ()) ∧
    Deduplicator.isDuplicate
        ({ has := fun st k => (.error "boom", st)
           set := fun st _ _ => (.error "boom", st)
           del := fun st _ => (.ok (), st)
           clear := none } : Backend Unit) {} () .undef =
      .error "Failed to hash message: Cannot hash undefined value" := by
  constructor
  · exact isDuplicate_failOpen_boundary.2.1 Unit _ {} () () (.num 1) _ "boom" rfl rfl
  · exact isDuplicate_failOpen_boundary.1 Unit _ {} () .undef _ rfl

/-- Claim C5: the structured-format hash is a pure function, and payloads
that are deeply equal up to reordering of object field names at any
nesting level hash identically. -/
theorem hashJson_pure_and_reorder_invariant :
    (∀ p, hashJson p = hashJson p) ∧
    (∀ p1 p2, deepEqualUpToReorder p1 p2 = true → hashJson p1 = hashJson p2) := by
  constructor
  · intro p
    rfl
  · intro p1 p2 h
    have hn := normalizeObject_congr p1 p2 h
    cases p1 <;> cases p2 <;>
      simp_all [deepEqualUpToReorder, hashJson, normalizeObject]

/-- Claim C5 witness: two nested payloads whose field lists are permuted
at both levels hash to the same digest. -/
theorem hashJson_pure_and_reorder_invariant_witness :
    deepEqualUpToReorder
        (.obj [("a", .num 1), ("b", .obj [("x", .str "v"), ("y", .null)])])
        (.obj [("b", .obj [("y", .null), ("x", .str "v")]), ("a", .num 1)]) = true ∧
    hashJson (.obj [("a", .num 1), ("b", .obj [("x", .str "v"), ("y", .null)])]) =
      hashJson (.obj [("b", .obj [("y", .null), ("x", .str "v")]), ("a", .num 1)]) :=
  ⟨by decide, hashJson_pure_and_reorder_invariant.2 _ _ (by decide)⟩

mutual
/-- Whether a value contains no date/time node at any depth. -/
def dateFree : JVal → Bool
  | .date _ => false
  | .arr l => dateFreeList l
  | .obj fs => dateFreeFields fs
  | .pb fs _ => dateFreeFields fs
  | _ => true

/-- `dateFree` over the elements of an array. -/
def dateFreeList : List JVal → Bool
  | [] => true
  | v :: tl => dateFree v && dateFreeList tl

/-- `dateFree` over the values of a field list. -/
def dateFreeFields : List (String × JVal) → Bool
  | [] => true
  | (_, v) :: tl => dateFree v && dateFreeFields tl
end

theorem dateFreeList_iff {l : List JVal} :
    dateFreeList l = true ↔ ∀ v ∈ l, dateFree v = true := by
  induction l with
  | nil => simp [dateFreeList]
  | cons v tl ih => simp [dateFreeList, ih]

theorem dateFreeFields_iff {fs : List (String × JVal)} :
    dateFreeFields fs = true ↔ ∀ p ∈ fs, dateFree (Prod.snd p) = true := by
  induction fs with
  | nil => simp [dateFreeFields]
  | cons p tl ih =>
    obtain ⟨k, v⟩ := p
    simp [dateFreeFields, ih]

/-- The values of the own enumerable properties of a `Buffer` are numbers. -/
theorem bufOwnFields_vals {b : List Nat} {p : String × JVal} (h : p ∈ bufOwnFields b) :
    ∃ n, Prod.snd p = JVal.num n := by
  simp only [bufOwnFields, List.mem_map] at h
  obtain ⟨⟨i, w⟩, hmem, he⟩ := h
  obtain ⟨hz1, hz2⟩ := List.of_mem_zip hmem
  obtain ⟨n, _, rfl⟩ := List.mem_map.mp hz2
  exact ⟨n, by rw [← he]⟩

/-- Canonicalization eliminates every date node. -/
theorem dateFree_normalizeObject : ∀ v, dateFree (normalizeObject v) = true := by
  intro v
  induction v using JVal.indOn with
  | hnull => rfl
  | hundef => rfl
  | hbool b => rfl
  | hnum n => rfl
  | hstr s => rfl
  | hdate t => rfl
  | hbuf b =>
    simp only [normalizeObject, dateFree]
    rw [dateFreeFields_iff]
    intro p hp
    have hp2 : p ∈ bufOwnFields b :=
      (List.perm_insertionSort keyLe _).mem_iff.mp hp
    obtain ⟨n, hn⟩ := bufOwnFields_vals hp2
    rw [hn]
    rfl
  | harr l ih =>
    simp only [normalizeObject, dateFree]
    rw [normList_eq_map, dateFreeList_iff]
    intro v2 hv2
    obtain ⟨v, hv, rfl⟩ := List.mem_map.mp hv2
    exact ih v hv
  | hobj fs ih =>
    simp only [normalizeObject, dateFree]
    rw [dateFreeFields_iff]
    intro p hp
    have hp2 : p ∈ normFields fs := (List.perm_insertionSort keyLe _).mem_iff.mp hp
    obtain ⟨k, w⟩ := p
    obtain ⟨v, hvmem, hnv⟩ := mem_normFields.mp hp2
    have hdf : dateFree (normalizeObject v) = true := ih (k, v) hvmem
    cases v <;> simp_all [normFieldVal, normalizeObject] <;> simp [← hnv, dateFree]
  | hpb fs b ih =>
    simp only [normalizeObject, dateFree]
    rw [dateFreeFields_iff]
    intro p hp
    have hp2 : p ∈ normFields fs := (List.perm_insertionSort keyLe _).mem_iff.mp hp
    obtain ⟨k, w⟩ := p
    obtain ⟨v, hvmem, hnv⟩ := mem_normFields.mp hp2
    have hdf : dateFree (normalizeObject v) = true := ih (k, v) hvmem
    cases v <;> simp_all [normFieldVal, normalizeObject] <;> simp [← hnv, dateFree]

/-- The own fields of a (normalized) object value. -/
def objFields : JVal → List (String × JVal)
  | .obj fs => fs
  | .pb fs _ => fs
  | _ => []

/-- Claim C6 counterexample: a date reached as an array element is NOT
replaced by its ISO string — it falls into the generic object branch and
becomes the empty object, so two distinct dates in array position even
canonicalize identically; likewise a buffer in array position is recursed
into as an object of its byte indices instead of passing through
unmodified. -/
theorem normalizeObject_array_position_counterexample :
    normalizeObject (.arr [.date 86400000]) = .arr [.obj []] ∧
    normalizeObject (.arr [.date 86400000]) ≠ .arr [.str (toISOString 86400000)] ∧
    normalizeObject (.arr [.date 0]) = normalizeObject (.arr [.date 86400000]) ∧
    normalizeObject (.arr [.buf [1, 2]]) =
      .arr [.obj [("0", .num 1), ("1", .num 2)]] := by
  refine ⟨rfl, ?_, rfl, ?_⟩
  · intro h
    rw [show normalizeObject (.arr [.date 86400000]) = .arr [.obj []] from rfl] at h
    simp at h
  · rfl

/-- Claim C6 (amended): canonicalization does recurse at every nesting
level, but the date-to-ISO conversion and the buffer pass-through apply
exactly to object-field positions: a date-valued field becomes its ISO
string and a buffer-valued field is kept unmodified, whereas a date at
top level or as an array element becomes the empty object and a buffer
in those positions is recursed into as an object of its byte indices.
Consequently no date node survives canonicalization anywhere. -/
theorem normalizeObject_position_dependent_canonicalization :
    (∀ l, normalizeObject (.arr l) = .arr (l.map normalizeObject)) ∧
    (∀ fs k t, (k, .date t) ∈ fs →
      (k, .str (toISOString t)) ∈ objFields (normalizeObject (.obj fs))) ∧
    (∀ fs k b2, (k, .buf b2) ∈ fs →
      (k, .buf b2) ∈ objFields (normalizeObject (.obj fs))) ∧
    (∀ t, normalizeObject (.date t) = .obj []) ∧
    (∀ b2, normalizeObject (.buf b2) = .obj (sortFields (bufOwnFields b2))) ∧
    (∀ v, dateFree (normalizeObject v) = true) := by
  refine ⟨?_, ?_, ?_, fun t => rfl, fun b2 => rfl, dateFree_normalizeObject⟩
  · intro l
    simp only [normalizeObject, normList_eq_map]
  · intro fs k t hmem
    simp only [normalizeObject, objFields]
    exact (List.perm_insertionSort keyLe _).mem_iff.mpr
      (mem_normFields.mpr ⟨.date t, hmem, rfl⟩)
  · intro fs k b2 hmem
    simp only [normalizeObject, objFields]
    exact (List.perm_insertionSort keyLe _).mem_iff.mpr
      (mem_normFields.mpr ⟨.buf b2, hmem, rfl⟩)

/-- Claim C6 (amended) witness: a date and a buffer in field position are
converted and passed through respectively. -/
theorem normalizeObject_position_dependent_canonicalization_witness :
    (normalizeObject (.arr [.num 1]) = .arr [.num 1]) ∧
    ("when", .str (toISOString 86400000)) ∈
      objFields (normalizeObject (.obj [("when", .date 86400000)])) ∧
    ("data", .buf [7]) ∈
      objFields (normalizeObject (.obj [("data", .buf [7]), ("a", .null)])) :=
  ⟨normalizeObject_position_dependent_canonicalization.1 [.num 1],
   normalizeObject_position_dependent_canonicalization.2.1 _ "when" 86400000 (List.mem_cons_self _ _),
   normalizeObject_position_dependent_canonicalization.2.2.1 _ "data" [7] (List.mem_cons_self _ _)⟩

/-- Claim C2 counterexample: with the connection down, `RedisCache.set`
on a non-empty key and a valid TTL raises nothing and inserts nothing —
it silently resolves with the state unchanged, whichever way the wire
would have behaved. -/
theorem redisSet_disconnected_counterexample :
    RedisCache.set "ts-dedup:" ⟨false, []⟩ "k" 60 true = .ok ⟨false, []⟩ ∧
    RedisCache.set "ts-dedup:" ⟨false, []⟩ "k" 60 false = .ok ⟨false, []⟩ :=
  ⟨rfl, rfl⟩

/-- Claim C2 (amended): for a non-empty key and a valid TTL, a wire
failure during `RedisCache.set` while connected raises (set is not
fail-open for write failures); but when the connection is known to be
down, `set` silently returns without attempting the insert, leaving the
state unchanged. -/
theorem redisSet_raises_only_when_connected
    (pfx : String) (st : RedisState) (k : String) (ttl : Int)
    (hk : k ≠ "") (httl : 0 < ttl) :
    (st.connected = true →
      RedisCache.set pfx st k ttl false = .error "Redis set failed") ∧
    (st.connected = false → ∀ w, RedisCache.set pfx st k ttl w = .ok st) := by
  constructor
  · intro hc
    unfold RedisCache.set RedisCache.getKey
    rw [if_neg hk, if_neg (by omega), if_neg (by simp [hc]), if_neg hk]
    rfl
  · intro hc w
    unfold RedisCache.set
    rw [if_neg hk, if_neg (by omega), if_pos hc]

/-- Claim C2 (amended) witness: the connected state with a failing wire
raises; the disconnected state silently resolves. -/
theorem redisSet_raises_only_when_connected_witness :
    RedisCache.set "ts-dedup:" ⟨true, []⟩ "k" 60 false = .error "Redis set failed" ∧
    RedisCache.set "ts-dedup:" ⟨false, []⟩ "k" 60 false = .ok ⟨false, []⟩ :=
  ⟨(redisSet_raises_only_when_connected "ts-dedup:" ⟨true, []⟩ "k" 60
      (by decide) (by decide)).1 rfl,
   (redisSet_raises_only_when_connected "ts-dedup:" ⟨false, []⟩ "k" 60
      (by decide) (by decide)).2 rfl false⟩

/-- Claim C3 counterexample: the in-process backend's `set` performs no
validation: called with the empty key and `ttl = 0` it raises nothing
(it cannot fail) and creates an entry. -/
theorem memSet_no_validation_counterexample :
    (memBackend {} 1000).set ({} : MemState) "" 0 =
      (.ok (),
        { store := [("ts-dedup:", ⟨1000, 0⟩)],
          timers := [⟨0, "ts-dedup:", 1000⟩], nextId := 1 }) := rfl

/-- Claim C3 (amended): only the networked backend's `set` fails with a
backend error on an empty key or a non-positive TTL (and then mutates
nothing, the validation preceding any wire call); the in-process
backend's `set` never fails and creates or replaces the entry — with
deadline `now + ttl * 1000` — even for an empty key or `ttl <= 0`. -/
theorem set_ttl_key_validation :
    (∀ (pfx : String) (st : RedisState) (k : String) (ttl : Int) (w : Bool),
      k = "" ∨ ttl ≤ 0 → ∃ e, RedisCache.set pfx st k ttl w = .error e) ∧
    (∀ (cfg : CacheCfg) (st : MemState) (k : String) (ttl now : Int),
      (MemoryCache.set cfg st k ttl now).store.find?
          (fun p => p.1 = getNamespacedKey cfg k) =
        some (getNamespacedKey cfg k, ⟨now + ttl * 1000, st.nextId⟩)) := by
  constructor
  · intro pfx st k ttl w h
    unfold RedisCache.set
    by_cases hk : k = ""
    · rw [if_pos hk]
      exact ⟨_, rfl⟩
    · have httl : ttl ≤ 0 := h.resolve_left hk
      rw [if_neg hk, if_pos httl]
      exact ⟨_, rfl⟩
  · intro cfg st k ttl now
    simp only [MemoryCache.set]
    rw [List.find?_cons_of_pos _ (by simp), MemoryCache.del_nextId]

/-- Claim C3 (amended) witness: the networked backend rejects `ttl = 0`
and the empty key; the in-process backend creates the entry for both. -/
theorem set_ttl_key_validation_witness :
    (∃ e, RedisCache.set "ts-dedup:" ⟨true, []⟩ "k" 0 true = .error e) ∧
    (∃ e, RedisCache.set "ts-dedup:" ⟨true, []⟩ "" 60 true = .error e) ∧
    (MemoryCache.set {} ({} : MemState) "" 0 1000).store.find?
        (fun p => p.1 = getNamespacedKey {} "") =
      some (getNamespacedKey {} "", ⟨1000, 0⟩) :=
  ⟨set_ttl_key_validation.1 "ts-dedup:" ⟨true, []⟩ "k" 0 true (Or.inr (by decide)),
   set_ttl_key_validation.1 "ts-dedup:" ⟨true, []⟩ "" 60 true (Or.inl rfl),
   set_ttl_key_validation.2 {} {} "" 0 1000⟩

/-- Claim C7 counterexample: a wire failure while clearing the networked
cache IS swallowed before reaching the Deduplicator caller:
`clearCache` on a connected Redis backend whose scan fails resolves
successfully and removes nothing (the error is caught inside
`RedisCache.clear`). -/
theorem redisClear_swallows_counterexample :
    Deduplicator.clearCache (redisBackend "ts-dedup:" false)
        (⟨true, [("ts-dedup:k", 60)]⟩ : RedisState) =
      .ok ⟨true, [("ts-dedup:k", 60)]⟩ ∧
    Deduplicator.removeFromCache (redisBackend "ts-dedup:" false) {}
        (⟨true, [("ts-dedup:k1", 60)]⟩ : RedisState)
        (.obj [("payload", .num 1), ("deduplicationKey", .str "k1")]) =
      .ok ⟨true, [("ts-dedup:k1", 60)]⟩ :=
  ⟨rfl, rfl⟩

/-- Claim C7 (amended): `Deduplicator.removeFromCache` and
`Deduplicator.clearCache` do re-throw any error the injected backend's
`delete` / `clear` raises; but the networked backend's `delete` and
`clear` catch wire failures internally and resolve with the state
unchanged, so a wire failure there never reaches the Deduplicator
caller. -/
theorem adminMutations_error_propagation :
    (∀ (σ : Type) (B : Backend σ) (cfg : CacheCfg) (st st1 : σ) (msg : JVal) (k e : String),
      Deduplicator.getCacheKey cfg (Deduplicator.normalizeMessage msg) = .ok k →
      B.del st k = (.error e, st1) →
      Deduplicator.removeFromCache B cfg st msg = .error e) ∧
    (∀ (σ : Type) (B : Backend σ) (st st1 : σ) (f : σ → (Except String Unit) × σ) (e : String),
      B.clear = some f → f st = (.error e, st1) →
      Deduplicator.clearCache B st = .error e) ∧
    (∀ (pfx : String) (st : RedisState) (k : String),
      st.connected = true → k ≠ "" → RedisCache.del pfx st k false = st) ∧
    (∀ (pfx : String) (st : RedisState),
      st.connected = true → RedisCache.clear pfx st false = st) := by
  refine ⟨?_, ?_, ?_, ?_⟩
  · intro σ B cfg st st1 msg k e hk hdel
    simp only [Deduplicator.removeFromCache, hk, hdel]
  · intro σ B st st1 f e hclear hf
    simp only [Deduplicator.clearCache, hclear, hf]
  · intro pfx st k hc hk
    unfold RedisCache.del RedisCache.getKey
    rw [if_neg hk, if_neg (by simp [hc]), if_neg hk]
    rfl
  · intro pfx st hc
    unfold RedisCache.clear RedisCache.clearWithCount
    rw [if_neg (by simp [hc]), if_neg (by simp [hc]), if_pos rfl]

/-- Claim C7 (amended) witness: a throwing backend's error reaches the
caller of both administrative operations, while the Redis backend's
wire failures are absorbed. -/
theorem adminMutations_error_propagation_witness :
    Deduplicator.removeFromCache
        ({ has := fun st _ => (.ok false, st)
           set := fun st _ _ => (.ok (), st)
           del := fun st _ => (.error "down", st)
           clear := some (fun st => (.error "down", st)) } : Backend Unit) {} ()
        (.obj [("payload", .num 1), ("deduplicationKey", .str "k1")]) = .error "down" ∧
    Deduplicator.clearCache
        ({ has := fun st _ => (.ok false, st)
           set := fun st _ _ => (.ok (), st)
           del := fun st _ => (.error "down", st)
           clear := some (fun st => (.error "down", st)) } : Backend Unit) () =
      .error "down" ∧
    RedisCache.del "ts-dedup:" ⟨true, [("ts-dedup:k", 60)]⟩ "k" false =
      ⟨true, [("ts-dedup:k", 60)]⟩ ∧
    RedisCache.clear "ts-dedup:" ⟨true, [("ts-dedup:k", 60)]⟩ false =
      ⟨true, [("ts-dedup:k", 60)]⟩ :=
  ⟨adminMutations_error_propagation.1 Unit _ {} () () _ "ts-dedup:k1" "down" rfl rfl,
   adminMutations_error_propagation.2.1 Unit _ () () _ "down" rfl rfl,
   adminMutations_error_propagation.2.2.1 "ts-dedup:" _ "k" rfl (by decide),
   adminMutations_error_propagation.2.2.2 "ts-dedup:" _ rfl⟩

/-- Claim C8: from a consistent state, after the in-process backend's
`clear()` completes: `has` is `false` for every key, every eviction
callback that was pending before the clear has been cancelled (none
remains), the store and its eviction bookkeeping are again mutually
consistent, and no (cancelled) eviction can fire against the cleared
store — firing any handle is a no-op. -/
theorem memClear_cancels_all_and_consistent
    (st : MemState) (hwf : MemoryCache.WF st) :
    (∀ (cfg : CacheCfg) (k : String) (now : Int),
      (MemoryCache.has cfg (MemoryCache.clear st) k now).1 = false) ∧
    (MemoryCache.clear st).timers = [] ∧
    MemoryCache.WF (MemoryCache.clear st) ∧
    (∀ tid, MemoryCache.fire (MemoryCache.clear st) tid = MemoryCache.clear st) := by
  have hwf2 := hwf
  unfold MemoryCache.WF at hwf2
  have htimers : (MemoryCache.clear st).timers = [] := by
    simp only [MemoryCache.clear]
    rw [List.filter_eq_nil_iff]
    intro t ht
    obtain ⟨p, hp, hpt, _⟩ := hwf2.2.2.2 t ht
    simp only [decide_not, Bool.not_eq_true', decide_eq_false_iff_not, not_not]
    exact ⟨p, hp, hpt⟩
  refine ⟨?_, htimers, ?_, ?_⟩
  · intro cfg k now
    simp [MemoryCache.has, MemoryCache.clear]
  · unfold MemoryCache.WF
    refine ⟨by simp [MemoryCache.clear], ?_, ?_, ?_⟩
    · rw [htimers]
      exact List.nodup_nil
    · intro p hp
      simp [MemoryCache.clear] at hp
    · intro t ht
      rw [htimers] at ht
      simp at ht
  · intro tid
    unfold MemoryCache.fire
    rw [htimers]
    rfl

/-- Claim C8 witness: a consistent one-entry state. -/
theorem memClear_cancels_all_and_consistent_witness :
    MemoryCache.WF
      ({ store := [("ts-dedup:k", ⟨300000, 0⟩)],
         timers := [⟨0, "ts-dedup:k", 300000⟩], nextId := 1 } : MemState) ∧
    (MemoryCache.clear
        { store := [("ts-dedup:k", ⟨300000, 0⟩)],
          timers := [⟨0, "ts-dedup:k", 300000⟩], nextId := 1 }).timers = [] ∧
    (MemoryCache.has {}
        (MemoryCache.clear
          { store := [("ts-dedup:k", ⟨300000, 0⟩)],
            timers := [⟨0, "ts-dedup:k", 300000⟩], nextId := 1 }) "k" 0).1 = false := by
  have hwf : MemoryCache.WF
      ({ store := [("ts-dedup:k", ⟨300000, 0⟩)],
         timers := [⟨0, "ts-dedup:k", 300000⟩], nextId := 1 } : MemState) := by decide
  have h := memClear_cancels_all_and_consistent _ hwf
  exact ⟨hwf, h.2.1, h.1 {} "k" 0⟩

/-- Claim C10 counterexample: a value that itself has a `payload`
property is treated as an envelope rather than as a raw payload, so
`isDuplicate(x)` and `isDuplicate({payload: x})` derive different cache
keys for `x = {payload: 1}` — the claim's key equation does not hold for
every value `x`. -/
theorem getCacheKey_envelope_shadowing_counterexample :
    ∃ k1 k2 : String,
      Deduplicator.getCacheKey {}
          (Deduplicator.normalizeMessage (.obj [("payload", .num 1)])) = .ok k1 ∧
      Deduplicator.getCacheKey {}
          (Deduplicator.normalizeMessage
            (.obj [("payload", .obj [("payload", .num 1)])])) = .ok k2 ∧
      k1 ≠ k2 :=
  ⟨_, _, rfl, rfl, by decide⟩

/-- Claim C10 (amended): an object with a `payload` property is treated
as a message envelope, its cache key derived solely from its
`deduplicationKey`, `payload` and `format` properties (so two envelopes
differing only in other fields derive the same key); and for every value
`x` that is not itself envelope-shaped (not a truthy object with a
`payload` property), `isDuplicate(x)` and `isDuplicate({payload: x})`
derive the same cache key. -/
theorem getCacheKey_envelope_amended :
    (∀ (cfg : CacheCfg) (x : JVal),
      (truthy x && typeofObject x && hasPayloadProp x) = false →
      Deduplicator.getCacheKey cfg
          (Deduplicator.normalizeMessage (.obj [("payload", x)])) =
        Deduplicator.getCacheKey cfg (Deduplicator.normalizeMessage x)) ∧
    (∀ (cfg : CacheCfg) (m1 m2 : JVal),
      (truthy m1 && typeofObject m1 && hasPayloadProp m1) = true →
      (truthy m2 && typeofObject m2 && hasPayloadProp m2) = true →
      getProp m1 "payload" = getProp m2 "payload" →
      getProp m1 "format" = getProp m2 "format" →
      getProp m1 "deduplicationKey" = getProp m2 "deduplicationKey" →
      Deduplicator.getCacheKey cfg (Deduplicator.normalizeMessage m1) =
        Deduplicator.getCacheKey cfg (Deduplicator.normalizeMessage m2)) := by
  constructor
  · intro cfg x h
    unfold Deduplicator.normalizeMessage
    rw [if_pos (by simp [truthy, typeofObject, hasPayloadProp]), if_neg (by simp [h])]
    simp [Deduplicator.getCacheKey, getProp, lookupField, truthy, hashMessage]
  · intro cfg m1 m2 h1 h2 hp hf hdk
    unfold Deduplicator.normalizeMessage
    rw [if_pos (by simp [h1]), if_pos (by simp [h2])]
    simp only [Deduplicator.getCacheKey, hp, hf, hdk]

/-- Claim C10 (amended) witness: a raw number derives the same key as its
wrapped envelope, and two envelopes differing only in an unrelated field
derive the same key. -/
theorem getCacheKey_envelope_amended_witness :
    Deduplicator.getCacheKey {}
        (Deduplicator.normalizeMessage (.obj [("payload", .num 7)])) =
      Deduplicator.getCacheKey {} (Deduplicator.normalizeMessage (.num 7)) ∧
    Deduplicator.getCacheKey {}
        (Deduplicator.normalizeMessage (.obj [("payload", .num 1), ("junk", .str "a")])) =
      Deduplicator.getCacheKey {}
        (Deduplicator.normalizeMessage (.obj [("payload", .num 1), ("other", .bool true)])) :=
  ⟨getCacheKey_envelope_amended.1 {} (.num 7) (by decide),
   getCacheKey_envelope_amended.2 {} _ _ (by decide) (by decide) rfl rfl rfl⟩
